import Mathlib

/-!
Shallow embedding of the Game-of-Life core from `src/main.rs`.

The Rust source fixes the grid dimensions through the constants
`GRID_WIDTH`/`GRID_HEIGHT`; the embedding carries them as fields
`width`/`height` of the `Game` structure so that the theorems quantify over
all grid sizes.  The two bit-packed `Vec<u64>` buffers become lists of
natural numbers (each entry standing for one 64-bit word; all words stay
below `2 ^ 64` because the only writes are `|||` with a single bit below
`2 ^ 64` and `&&&`).  Rust's panicking index operator `v[i]` is rendered
with `List.getD`/`List.set`; the in-bounds theorems (claim C6) show every
index that the code computes is below the buffer length, so the panicking
branch is unreachable.  The `HashMap<(usize, usize), usize>` of cell ages
is rendered extensionally as a function `Nat × Nat → Option Nat`
(`none` = key absent).  The random seeding `rng.gen_bool(0.5)` is an
external input; it is modelled as an oracle `seed : Nat → Nat → Bool`
passed to `Game.new`.
-/

/-- `BIT_VEC_SIZE` from the source: `(GRID_WIDTH * GRID_HEIGHT + 63) / 64`. -/
def BIT_VEC_SIZE (W H : Nat) : Nat := (W * H + 63) / 64

/-- The `Game` struct: two packed word buffers and the age map. -/
structure Game where
  width : Nat
  height : Nat
  cells : List Nat
  next_cells : List Nat
  cell_ages : Nat × Nat → Option Nat

namespace Game

/-- `Game::get_cell_state`: read bit `y*width + x` of `cells`. -/
def get_cell_state (g : Game) (x y : Nat) : Bool :=
  let bit_index := y * g.width + x
  let vec_index := bit_index / 64
  let bit_offset := bit_index % 64
  ((g.cells.getD vec_index 0) &&& (1 <<< bit_offset)) != 0

/-- `Game::set_cell_state`: write bit `y*width + x` of `next_cells`.
`!(1u64 << bit_offset)` is the 64-bit complement `(2^64 - 1) ^^^ (1 <<< bit_offset)`. -/
def set_cell_state (g : Game) (x y : Nat) (state : Bool) : Game :=
  let bit_index := y * g.width + x
  let vec_index := bit_index / 64
  let bit_offset := bit_index % 64
  if state then
    { g with next_cells :=
        g.next_cells.set vec_index ((g.next_cells.getD vec_index 0) ||| (1 <<< bit_offset)) }
  else
    let w := (g.next_cells.getD vec_index 0) &&& ((2 ^ 64 - 1) ^^^ (1 <<< bit_offset))
    { g with next_cells := g.next_cells.set vec_index w }

/-- `Game::count_alive_neighbors`: iterate `dy`, `dx` over `[-1, 0, 1]`,
skip `(0,0)`, wrap with `(x + dx + width) % width` in signed arithmetic. -/
def count_alive_neighbors (g : Game) (x y : Nat) : Nat :=
  [(-1 : Int), 0, 1].foldl (fun count dy =>
    [(-1 : Int), 0, 1].foldl (fun count dx =>
      if dx == 0 && dy == 0 then count
      else
        let nx := (((x : Int) + dx + (g.width : Int)) % (g.width : Int)).toNat
        let ny := (((y : Int) + dy + (g.height : Int)) % (g.height : Int)).toNat
        if g.get_cell_state nx ny then count + 1 else count) count) 0

/-- The rule `match (alive, neighbors) { (true, 2) | (_, 3) => true, _ => false }`. -/
def next_state_of (alive : Bool) (neighbors : Nat) : Bool :=
  match alive, neighbors with
  | true, 2 => true
  | _, 3 => true
  | _, _ => false

/-- The body of the double loop in `Game::update_game_state` for one cell:
compute the next state, update the age entry, write the bit into `next_cells`. -/
def update_cell (g : Game) (x y : Nat) : Game :=
  let alive := g.get_cell_state x y
  let neighbors := g.count_alive_neighbors x y
  let next_state := next_state_of alive neighbors
  let g1 : Game :=
    if next_state then
      -- `let age = self.cell_ages.entry((x, y)).or_insert(0);
      --  if !alive { *age = 0; } *age += 1;`
      let age0 := (g.cell_ages (x, y)).getD 0
      let age1 := if !alive then 0 else age0
      { g with cell_ages := fun p => if p = (x, y) then some (age1 + 1) else g.cell_ages p }
    else
      { g with cell_ages := fun p => if p = (x, y) then none else g.cell_ages p }
  g1.set_cell_state x y next_state

/-- `Game::update_game_state`: the double loop (`y` outer, `x` inner) followed
by `std::mem::swap(&mut self.cells, &mut self.next_cells)`. -/
def update_game_state (g : Game) : Game :=
  let g' := (List.range g.height).foldl (fun a y =>
    (List.range g.width).foldl (fun b x => update_cell b x y) a) g
  { g' with cells := g'.next_cells, next_cells := g'.cells }

/-- The body of the double loop in `Game::new` for one cell: if the seed
oracle (standing for `rng.gen_bool(0.5)`) says alive, set bit `y*W + x` of
`cells` and insert age 1 for `(x, y)`. -/
def seedCell (W : Nat) (seed : Nat → Nat → Bool) (b : Game) (x y : Nat) : Game :=
  if seed x y then
    let bit_index := y * W + x
    let vec_index := bit_index / 64
    let bit_offset := bit_index % 64
    { b with
      cells := b.cells.set vec_index ((b.cells.getD vec_index 0) ||| (1 <<< bit_offset)),
      cell_ages := fun p => if p = (x, y) then some 1 else b.cell_ages p }
  else b

/-- `Game::new`: zeroed buffers, then the double seeding loop
(`x` outer / `y` inner). -/
def new (W H : Nat) (seed : Nat → Nat → Bool) : Game :=
  let init : Game :=
    { width := W, height := H,
      cells := List.replicate (BIT_VEC_SIZE W H) 0,
      next_cells := List.replicate (BIT_VEC_SIZE W H) 0,
      cell_ages := fun _ => none }
  (List.range W).foldl (fun a x =>
    (List.range H).foldl (fun b y => seedCell W seed b x y) a) init

end Game

/-- Iterating `update_game_state` `n` times. -/
def steps : Nat → Game → Game
  | 0, g => g
  | n + 1, g => steps n (g.update_game_state)

/-- The games reachable from construction by repeated `update_game_state`. -/
inductive Reachable (W H : Nat) : Game → Prop
  | base (seed : Nat → Nat → Bool) : Reachable W H (Game.new W H seed)
  | step (g : Game) : Reachable W H g → Reachable W H g.update_game_state

/-! Observation helpers (model-level accessors, not source functions). -/

/-- Bit `i` of a packed word buffer: word `i / 64`, offset `i % 64`. -/
def bitAt (ws : List Nat) (i : Nat) : Bool :=
  ((ws.getD (i / 64) 0) &&& (1 <<< (i % 64))) != 0

/-- The wrapped coordinate `((a + d + m) % m)` computed in signed arithmetic,
exactly as `count_alive_neighbors` computes `nx`/`ny`. -/
def wrap (a : Nat) (d : Int) (m : Nat) : Nat :=
  (((a : Int) + d + (m : Int)) % (m : Int)).toNat

/-- The eight neighbor offsets `(dx, dy)` in the order the double loop visits
them (`dy` outer, `dx` inner, skipping `(0,0)`). -/
def neighbor_offsets : List (Int × Int) :=
  [(-1, -1), (0, -1), (1, -1), (-1, 0), (1, 0), (-1, 1), (0, 1), (1, 1)]

/-- The eight neighbor coordinates of `(x, y)` after toroidal wraparound. -/
def neighborCoords (W H x y : Nat) : List (Nat × Nat) :=
  neighbor_offsets.map (fun d => (wrap x d.1 W, wrap y d.2 H))

/-- Row-major list of all cell coordinates, `y` outer / `x` inner, the order
`update_game_state` visits them. -/
def coordsYX (W H : Nat) : List (Nat × Nat) :=
  (List.range H).flatMap (fun y => (List.range W).map (fun x => (x, y)))

/-- The canonical B3/S23 rule as the spec writes it:
`(alive && (n == 2 || n == 3)) || (!alive && n == 3)`. -/
def rule_spec (alive : Bool) (n : Nat) : Bool :=
  (alive && (n == 2 || n == 3)) || (!alive && (n == 3))

/-! The color derivation.  `f32` arithmetic is idealized as exact rational
arithmetic; the numeric literals `0.05`, `0.2`, `1.0` and the `u8 → f32`
conversion `c / 255` are exact rationals here. -/

/-- `ggez::graphics::Color`: four channels. -/
structure Color where
  r : ℚ
  g : ℚ
  b : ℚ
  a : ℚ

/-- `Color::from_rgb`: divides each `u8` channel by 255, alpha 1. -/
def Color.from_rgb (r g b : Nat) : Color :=
  ⟨(r : ℚ) / 255, (g : ℚ) / 255, (b : ℚ) / 255, 1⟩

/-- `calculate_color` from the source. -/
def calculate_color (age : Nat) (neighbors : Nat) : Color :=
  let active_color := Color.from_rgb 236 68 155
  let stable_color := Color.from_rgb 153 244 67
  let max_active_age := 10
  let color := if age ≤ max_active_age then active_color else stable_color
  let brightness_factor : ℚ := 1 - min ((neighbors : ℚ) * 0.05) 0.2
  ⟨color.r * brightness_factor, color.g * brightness_factor,
   color.b * brightness_factor, 1.0⟩

/-- A horizontal 3-cell blinker on an otherwise empty 5×5 grid. -/
def blinker : Game :=
  Game.new 5 5 (fun x y => y == 2 && (x == 1 || x == 2 || x == 3))

/-! ### Bit-level lemmas -/

lemma and_one_shift_ne (w o : Nat) : ((w &&& (1 <<< o)) != 0) = w.testBit o := by
  rw [Nat.one_shiftLeft, Nat.and_two_pow]
  cases h : w.testBit o
  · simp
  · simp [(Nat.two_pow_pos o).ne']

lemma bitAt_eq_testBit (ws : List Nat) (i : Nat) :
    bitAt ws i = (ws.getD (i / 64) 0).testBit (i % 64) :=
  and_one_shift_ne _ _

lemma getD_set_self (ws : List Nat) (v w : Nat) (h : v < ws.length) :
    (ws.set v w).getD v 0 = w := by
  simp [List.getD_eq_getElem?_getD, List.getElem?_set_self h]

lemma getD_set_other (ws : List Nat) (v u w : Nat) (h : v ≠ u) :
    (ws.set v w).getD u 0 = ws.getD u 0 := by
  simp [List.getD_eq_getElem?_getD, List.getElem?_set_ne h]

lemma bit_index_inj {W x₁ y₁ x₂ y₂ : Nat} (h₁ : x₁ < W) (h₂ : x₂ < W)
    (h : y₁ * W + x₁ = y₂ * W + x₂) : x₁ = x₂ ∧ y₁ = y₂ := by
  have hx : x₁ = x₂ := by
    have e₁ : (y₁ * W + x₁) % W = x₁ := by
      rw [Nat.mul_comm, Nat.mul_add_mod]; exact Nat.mod_eq_of_lt h₁
    have e₂ : (y₂ * W + x₂) % W = x₂ := by
      rw [Nat.mul_comm, Nat.mul_add_mod]; exact Nat.mod_eq_of_lt h₂
    rw [← e₁, ← e₂, h]
  subst hx
  refine ⟨rfl, ?_⟩
  have hW : 0 < W := Nat.pos_of_ne_zero (by omega)
  exact Nat.eq_of_mul_eq_mul_right hW (by omega)

lemma bit_index_lt {W H x y : Nat} (hx : x < W) (hy : y < H) : y * W + x < W * H := by
  have h1 : (y + 1) * W ≤ H * W := Nat.mul_le_mul_right W (Nat.succ_le_of_lt hy)
  have h2 : (y + 1) * W = y * W + W := Nat.succ_mul y W
  have h3 : H * W = W * H := Nat.mul_comm H W
  omega

lemma vec_index_lt {W H x y : Nat} (hx : x < W) (hy : y < H) :
    (y * W + x) / 64 < BIT_VEC_SIZE W H := by
  have := bit_index_lt hx hy
  unfold BIT_VEC_SIZE
  omega

lemma bitAt_set_or (ws : List Nat) (bi j : Nat) (h : bi / 64 < ws.length) :
    bitAt (ws.set (bi / 64) ((ws.getD (bi / 64) 0) ||| (1 <<< (bi % 64)))) j =
      if j = bi then true else bitAt ws j := by
  rw [bitAt_eq_testBit, bitAt_eq_testBit]
  by_cases hv : j / 64 = bi / 64
  · rw [hv, getD_set_self _ _ _ h, Nat.one_shiftLeft, Nat.testBit_or, Nat.testBit_two_pow]
    by_cases hj : j = bi
    · subst hj; simp
    · have hne : ¬ (bi % 64 = j % 64) := by omega
      simp [hj, hne]
  · rw [getD_set_other _ _ _ _ (Ne.symm hv)]
    have hj : j ≠ bi := by omega
    simp [hj]

lemma bitAt_set_and (ws : List Nat) (bi j : Nat) (h : bi / 64 < ws.length) :
    bitAt (ws.set (bi / 64)
      ((ws.getD (bi / 64) 0) &&& ((2 ^ 64 - 1) ^^^ (1 <<< (bi % 64))))) j =
      if j = bi then false else bitAt ws j := by
  rw [bitAt_eq_testBit, bitAt_eq_testBit]
  by_cases hv : j / 64 = bi / 64
  · rw [hv, getD_set_self _ _ _ h, Nat.one_shiftLeft, Nat.testBit_and, Nat.testBit_xor,
      Nat.testBit_two_pow, Nat.testBit_two_pow_sub_one]
    have ho : j % 64 < 64 := Nat.mod_lt _ (by omega)
    by_cases hj : j = bi
    · subst hj; simp [ho]
    · have hne : ¬ (bi % 64 = j % 64) := by omega
      simp [hj, hne, ho]
  · rw [getD_set_other _ _ _ _ (Ne.symm hv)]
    have hj : j ≠ bi := by omega
    simp [hj]

/-! ### `set_cell_state` and `update_cell` characterization -/

lemma set_cell_state_width (g : Game) (x y : Nat) (b : Bool) :
    (g.set_cell_state x y b).width = g.width := by
  cases b <;> rfl

lemma set_cell_state_height (g : Game) (x y : Nat) (b : Bool) :
    (g.set_cell_state x y b).height = g.height := by
  cases b <;> rfl

lemma set_cell_state_cells (g : Game) (x y : Nat) (b : Bool) :
    (g.set_cell_state x y b).cells = g.cells := by
  cases b <;> rfl

lemma set_cell_state_ages (g : Game) (x y : Nat) (b : Bool) :
    (g.set_cell_state x y b).cell_ages = g.cell_ages := by
  cases b <;> rfl

lemma set_cell_state_next_length (g : Game) (x y : Nat) (b : Bool) :
    (g.set_cell_state x y b).next_cells.length = g.next_cells.length := by
  cases b <;> simp [Game.set_cell_state]

lemma set_cell_state_bit (g : Game) (x y : Nat) (b : Bool) (j : Nat)
    (h : (y * g.width + x) / 64 < g.next_cells.length) :
    bitAt (g.set_cell_state x y b).next_cells j =
      if j = y * g.width + x then b else bitAt g.next_cells j := by
  cases b
  · exact bitAt_set_and g.next_cells (y * g.width + x) j h
  · exact bitAt_set_or g.next_cells (y * g.width + x) j h

/-- The age value `update_cell` leaves for the cell it processes,
read off the pre-state `g`. -/
def ageStep (g : Game) (x y : Nat) : Option Nat :=
  if Game.next_state_of (g.get_cell_state x y) (g.count_alive_neighbors x y)
  then some ((if g.get_cell_state x y then (g.cell_ages (x, y)).getD 0 else 0) + 1)
  else none

lemma update_cell_width (g : Game) (x y : Nat) :
    (g.update_cell x y).width = g.width := by
  simp only [Game.update_cell]
  split <;> simp [set_cell_state_width]

lemma update_cell_height (g : Game) (x y : Nat) :
    (g.update_cell x y).height = g.height := by
  simp only [Game.update_cell]
  split <;> simp [set_cell_state_height]

lemma update_cell_cells (g : Game) (x y : Nat) :
    (g.update_cell x y).cells = g.cells := by
  simp only [Game.update_cell]
  split <;> simp [set_cell_state_cells]

lemma update_cell_next_length (g : Game) (x y : Nat) :
    (g.update_cell x y).next_cells.length = g.next_cells.length := by
  simp only [Game.update_cell]
  split <;> simp [set_cell_state_next_length]

lemma update_cell_next_bit (g : Game) (x y : Nat) (j : Nat)
    (h : (y * g.width + x) / 64 < g.next_cells.length) :
    bitAt (g.update_cell x y).next_cells j =
      if j = y * g.width + x then
        Game.next_state_of (g.get_cell_state x y) (g.count_alive_neighbors x y)
      else bitAt g.next_cells j := by
  simp only [Game.update_cell]
  split <;> exact set_cell_state_bit _ _ _ _ _ h

lemma update_cell_ages (g : Game) (x y : Nat) (p : Nat × Nat) :
    (g.update_cell x y).cell_ages p =
      if p = (x, y) then ageStep g x y else g.cell_ages p := by
  simp only [Game.update_cell]
  rw [set_cell_state_ages]
  unfold ageStep
  by_cases hns : Game.next_state_of (g.get_cell_state x y) (g.count_alive_neighbors x y) = true
  · rw [if_pos hns, if_pos hns]
    cases ha : g.get_cell_state x y <;> simp [ha]
  · rw [if_neg hns, if_neg hns]

/-! ### The full pass over the grid -/

lemma get_eq_bitAt (g : Game) (x y : Nat) :
    g.get_cell_state x y = bitAt g.cells (y * g.width + x) := rfl

lemma get_congr {g g' : Game} (hc : g'.cells = g.cells) (hw : g'.width = g.width)
    (x y : Nat) : g'.get_cell_state x y = g.get_cell_state x y := by
  simp [Game.get_cell_state, hc, hw]

lemma count_congr {g g' : Game} (hc : g'.cells = g.cells) (hw : g'.width = g.width)
    (hh : g'.height = g.height) (x y : Nat) :
    g'.count_alive_neighbors x y = g.count_alive_neighbors x y := by
  simp only [Game.count_alive_neighbors, hw, hh, get_congr hc hw]

/-- The fold of `update_cell` over an explicit list of coordinates; the nested
loops of `update_game_state` are this fold over `coordsYX` (proved below). -/
def passList (g : Game) (l : List (Nat × Nat)) : Game :=
  l.foldl (fun a p => a.update_cell p.1 p.2) g

lemma passList_cells (g : Game) (l : List (Nat × Nat)) :
    (passList g l).cells = g.cells := by
  induction l generalizing g with
  | nil => rfl
  | cons p l ih =>
    show (passList (g.update_cell p.1 p.2) l).cells = g.cells
    rw [ih, update_cell_cells]

lemma passList_width (g : Game) (l : List (Nat × Nat)) :
    (passList g l).width = g.width := by
  induction l generalizing g with
  | nil => rfl
  | cons p l ih =>
    show (passList (g.update_cell p.1 p.2) l).width = g.width
    rw [ih, update_cell_width]

lemma passList_height (g : Game) (l : List (Nat × Nat)) :
    (passList g l).height = g.height := by
  induction l generalizing g with
  | nil => rfl
  | cons p l ih =>
    show (passList (g.update_cell p.1 p.2) l).height = g.height
    rw [ih, update_cell_height]

lemma passList_next_length (g : Game) (l : List (Nat × Nat)) :
    (passList g l).next_cells.length = g.next_cells.length := by
  induction l generalizing g with
  | nil => rfl
  | cons p l ih =>
    show (passList (g.update_cell p.1 p.2) l).next_cells.length = g.next_cells.length
    rw [ih, update_cell_next_length]

lemma passList_next_bit (l : List (Nat × Nat)) :
    ∀ g : Game, BIT_VEC_SIZE g.width g.height ≤ g.next_cells.length →
      (∀ p ∈ l, p.1 < g.width ∧ p.2 < g.height) →
      ∀ x y : Nat, x < g.width → y < g.height →
      bitAt (passList g l).next_cells (y * g.width + x) =
        if (x, y) ∈ l then
          Game.next_state_of (g.get_cell_state x y) (g.count_alive_neighbors x y)
        else bitAt g.next_cells (y * g.width + x) := by
  induction l with
  | nil =>
    intro g _ _ x y _ _
    simp [passList]
  | cons p l ih =>
    intro g hn hl x y hx hy
    obtain ⟨px, py⟩ := p
    obtain ⟨hpw, hph⟩ := hl (px, py) (List.mem_cons_self _ _)
    have hcw := update_cell_width g px py
    have hch := update_cell_height g px py
    have hcc := update_cell_cells g px py
    have hcl := update_cell_next_length g px py
    have hvec : (py * g.width + px) / 64 < g.next_cells.length :=
      lt_of_lt_of_le (vec_index_lt hpw hph) hn
    have ihg := ih (g.update_cell px py)
      (by rw [hcw, hch, hcl]; exact hn)
      (by intro q hq; rw [hcw, hch]; exact hl q (List.mem_cons_of_mem _ hq))
      x y (by rw [hcw]; exact hx) (by rw [hch]; exact hy)
    rw [hcw] at ihg
    rw [get_congr hcc hcw, count_congr hcc hcw hch] at ihg
    show bitAt (passList (g.update_cell px py) l).next_cells (y * g.width + x) = _
    rw [ihg, update_cell_next_bit g px py (y * g.width + x) hvec]
    by_cases hmem : (x, y) ∈ l
    · simp [hmem]
    · by_cases hpq : x = px ∧ y = py
      · obtain ⟨hx1, hy1⟩ := hpq
        subst hx1; subst hy1
        simp [hmem]
      · have hidx : y * g.width + x ≠ py * g.width + px := by
          intro he
          obtain ⟨e1, e2⟩ := bit_index_inj hx hpw he
          exact hpq ⟨e1, e2⟩
        have hne : ¬ ((x, y) = (px, py)) := by
          intro he
          rw [Prod.mk.injEq] at he
          exact hpq he
        simp [hmem, hne, hidx]

lemma passList_next_bit_other (l : List (Nat × Nat)) :
    ∀ g : Game, BIT_VEC_SIZE g.width g.height ≤ g.next_cells.length →
      (∀ p ∈ l, p.1 < g.width ∧ p.2 < g.height) →
      ∀ j : Nat, (∀ p ∈ l, j ≠ p.2 * g.width + p.1) →
      bitAt (passList g l).next_cells j = bitAt g.next_cells j := by
  induction l with
  | nil => intro g _ _ j _; rfl
  | cons p l ih =>
    intro g hn hl j hj
    obtain ⟨px, py⟩ := p
    obtain ⟨hpw, hph⟩ := hl (px, py) (List.mem_cons_self _ _)
    have hcw := update_cell_width g px py
    have hch := update_cell_height g px py
    have hcl := update_cell_next_length g px py
    have hvec : (py * g.width + px) / 64 < g.next_cells.length :=
      lt_of_lt_of_le (vec_index_lt hpw hph) hn
    have ihg := ih (g.update_cell px py)
      (by rw [hcw, hch, hcl]; exact hn)
      (by intro q hq; rw [hcw, hch]; exact hl q (List.mem_cons_of_mem _ hq))
      j (by intro q hq; rw [hcw]; exact hj q (List.mem_cons_of_mem _ hq))
    show bitAt (passList (g.update_cell px py) l).next_cells j = _
    rw [ihg, update_cell_next_bit g px py j hvec,
      if_neg (hj (px, py) (List.mem_cons_self _ _))]

lemma ageStep_congr {g g' : Game} (hc : g'.cells = g.cells) (hw : g'.width = g.width)
    (hh : g'.height = g.height) (x y : Nat)
    (ha : g'.cell_ages (x, y) = g.cell_ages (x, y)) :
    ageStep g' x y = ageStep g x y := by
  unfold ageStep
  rw [get_congr hc hw, count_congr hc hw hh, ha]

lemma passList_ages (l : List (Nat × Nat)) :
    ∀ g : Game, l.Nodup → ∀ qx qy : Nat,
      (passList g l).cell_ages (qx, qy) =
        if (qx, qy) ∈ l then ageStep g qx qy else g.cell_ages (qx, qy) := by
  induction l with
  | nil => intro g _ qx qy; simp [passList]
  | cons p l ih =>
    intro g hnd qx qy
    obtain ⟨px, py⟩ := p
    obtain ⟨hp, hl⟩ := List.nodup_cons.mp hnd
    have hcw := update_cell_width g px py
    have hch := update_cell_height g px py
    have hcc := update_cell_cells g px py
    have hages := update_cell_ages g px py
    show (passList (g.update_cell px py) l).cell_ages (qx, qy) = _
    rw [ih (g.update_cell px py) hl qx qy]
    by_cases hmem : (qx, qy) ∈ l
    · have hne : ¬ ((qx, qy) = (px, py)) := by
        intro he
        rw [he] at hmem
        exact hp hmem
      rw [if_pos hmem, if_pos (List.mem_cons_of_mem _ hmem)]
      exact ageStep_congr hcc hcw hch qx qy (by rw [hages, if_neg hne])
    · rw [if_neg hmem, hages]
      by_cases hpq : (qx, qy) = (px, py)
      · rw [if_pos hpq, if_pos (by rw [List.mem_cons]; exact Or.inl hpq)]
        cases hpq
        rfl
      · have hnotmem : ¬ ((qx, qy) ∈ (px, py) :: l) := by
          rw [List.mem_cons]
          rintro (h | h)
          · exact hpq h
          · exact hmem h
        rw [if_neg hpq, if_neg hnotmem]

/-! ### `update_game_state` as a fold over `coordsYX` -/

lemma passList_append (g : Game) (l₁ l₂ : List (Nat × Nat)) :
    passList g (l₁ ++ l₂) = passList (passList g l₁) l₂ := by
  simp [passList]

lemma passList_map_range (g : Game) (W y : Nat) :
    passList g ((List.range W).map (fun x => (x, y))) =
      (List.range W).foldl (fun b x => b.update_cell x y) g := by
  simp [passList, List.foldl_map]

lemma pass_eq (W : Nat) : ∀ (L : List Nat) (g : Game),
    L.foldl (fun a y => (List.range W).foldl (fun b x => b.update_cell x y) a) g
      = passList g (L.flatMap (fun y => (List.range W).map (fun x => (x, y)))) := by
  intro L
  induction L with
  | nil => intro g; rfl
  | cons y L ih =>
    intro g
    rw [List.foldl_cons, List.flatMap_cons, passList_append, passList_map_range, ih]

lemma update_eq_pass (g : Game) :
    g.update_game_state =
      { passList g (coordsYX g.width g.height) with
        cells := (passList g (coordsYX g.width g.height)).next_cells,
        next_cells := (passList g (coordsYX g.width g.height)).cells } := by
  simp only [Game.update_game_state]
  rw [pass_eq g.width (List.range g.height) g]
  rfl

lemma mem_coordsYX {W H x y : Nat} : (x, y) ∈ coordsYX W H ↔ x < W ∧ y < H := by
  constructor
  · intro h
    simp only [coordsYX, List.mem_flatMap, List.mem_map, List.mem_range] at h
    obtain ⟨b, hb, a, ha, he⟩ := h
    cases he
    exact ⟨ha, hb⟩
  · rintro ⟨hx, hy⟩
    simp only [coordsYX, List.mem_flatMap, List.mem_map, List.mem_range]
    exact ⟨y, hy, x, hx, rfl⟩

lemma nodup_flat (W : Nat) : ∀ L : List Nat, L.Nodup →
    (L.flatMap (fun y => (List.range W).map (fun x => (x, y)))).Nodup := by
  intro L
  induction L with
  | nil => intro _; simp
  | cons y L ih =>
    intro h
    obtain ⟨hy, hL⟩ := List.nodup_cons.mp h
    rw [List.flatMap_cons]
    apply List.Nodup.append
    · exact (List.nodup_range W).map (fun a b hab => congrArg Prod.fst hab)
    · exact ih hL
    · intro p hp1 hp2
      simp only [List.mem_map, List.mem_range] at hp1
      simp only [List.mem_flatMap, List.mem_map, List.mem_range] at hp2
      obtain ⟨b, hb, he⟩ := hp1
      obtain ⟨a, ha, c, hc, he2⟩ := hp2
      cases he
      cases he2
      exact hy ha

lemma nodup_coordsYX (W H : Nat) : (coordsYX W H).Nodup :=
  nodup_flat W (List.range H) (List.nodup_range H)

lemma update_width (g : Game) : g.update_game_state.width = g.width := by
  rw [update_eq_pass]
  exact passList_width g _

lemma update_height (g : Game) : g.update_game_state.height = g.height := by
  rw [update_eq_pass]
  exact passList_height g _

lemma update_next_cells (g : Game) : g.update_game_state.next_cells = g.cells := by
  rw [update_eq_pass]
  exact passList_cells g _

lemma update_cells_eq (g : Game) :
    g.update_game_state.cells = (passList g (coordsYX g.width g.height)).next_cells := by
  rw [update_eq_pass]

lemma update_ages_eq (g : Game) :
    g.update_game_state.cell_ages = (passList g (coordsYX g.width g.height)).cell_ages := by
  rw [update_eq_pass]

lemma update_cells_length (g : Game) :
    g.update_game_state.cells.length = g.next_cells.length := by
  rw [update_cells_eq]
  exact passList_next_length g _

lemma update_next_length (g : Game) :
    g.update_game_state.next_cells.length = g.cells.length := by
  rw [update_next_cells]

lemma coordsYX_bounds {W H : Nat} : ∀ p ∈ coordsYX W H, p.1 < W ∧ p.2 < H := by
  intro p hp
  obtain ⟨px, py⟩ := p
  exact mem_coordsYX.mp hp

lemma update_get (g : Game) {x y : Nat} (hx : x < g.width) (hy : y < g.height)
    (hn : BIT_VEC_SIZE g.width g.height ≤ g.next_cells.length) :
    g.update_game_state.get_cell_state x y =
      Game.next_state_of (g.get_cell_state x y) (g.count_alive_neighbors x y) := by
  rw [get_eq_bitAt, update_width, update_cells_eq,
    passList_next_bit (coordsYX g.width g.height) g hn coordsYX_bounds x y hx hy,
    if_pos (mem_coordsYX.mpr ⟨hx, hy⟩)]

lemma update_cells_bit_other (g : Game) (j : Nat) (hj : g.width * g.height ≤ j)
    (hn : BIT_VEC_SIZE g.width g.height ≤ g.next_cells.length) :
    bitAt g.update_game_state.cells j = bitAt g.next_cells j := by
  rw [update_cells_eq]
  apply passList_next_bit_other (coordsYX g.width g.height) g hn coordsYX_bounds
  intro p hp
  obtain ⟨hpw, hph⟩ := coordsYX_bounds p hp
  have := bit_index_lt hpw hph
  omega

lemma update_ages_in (g : Game) {x y : Nat} (hx : x < g.width) (hy : y < g.height) :
    g.update_game_state.cell_ages (x, y) = ageStep g x y := by
  rw [congrFun (update_ages_eq g) (x, y),
    passList_ages (coordsYX g.width g.height) g (nodup_coordsYX _ _) x y,
    if_pos (mem_coordsYX.mpr ⟨hx, hy⟩)]

lemma update_ages_out (g : Game) {x y : Nat} (h : ¬(x < g.width ∧ y < g.height)) :
    g.update_game_state.cell_ages (x, y) = g.cell_ages (x, y) := by
  rw [congrFun (update_ages_eq g) (x, y),
    passList_ages (coordsYX g.width g.height) g (nodup_coordsYX _ _) x y, if_neg]
  intro hm
  exact h (mem_coordsYX.mp hm)

/-! ### Characterization of `Game.new` -/

/-- Column-major list of all cell coordinates, `x` outer / `y` inner, the
order `new` visits them. -/
def coordsXY (W H : Nat) : List (Nat × Nat) :=
  (List.range W).flatMap (fun x => (List.range H).map (fun y => (x, y)))

lemma mem_coordsXY {W H x y : Nat} : (x, y) ∈ coordsXY W H ↔ x < W ∧ y < H := by
  constructor
  · intro h
    simp only [coordsXY, List.mem_flatMap, List.mem_map, List.mem_range] at h
    obtain ⟨b, hb, a, ha, he⟩ := h
    cases he
    exact ⟨hb, ha⟩
  · rintro ⟨hx, hy⟩
    simp only [coordsXY, List.mem_flatMap, List.mem_map, List.mem_range]
    exact ⟨x, hx, y, hy, rfl⟩

lemma seedCell_width (W : Nat) (seed : Nat → Nat → Bool) (b : Game) (x y : Nat) :
    (Game.seedCell W seed b x y).width = b.width := by
  unfold Game.seedCell
  split <;> rfl

lemma seedCell_height (W : Nat) (seed : Nat → Nat → Bool) (b : Game) (x y : Nat) :
    (Game.seedCell W seed b x y).height = b.height := by
  unfold Game.seedCell
  split <;> rfl

lemma seedCell_next (W : Nat) (seed : Nat → Nat → Bool) (b : Game) (x y : Nat) :
    (Game.seedCell W seed b x y).next_cells = b.next_cells := by
  unfold Game.seedCell
  split <;> rfl

lemma seedCell_cells_length (W : Nat) (seed : Nat → Nat → Bool) (b : Game) (x y : Nat) :
    (Game.seedCell W seed b x y).cells.length = b.cells.length := by
  unfold Game.seedCell
  split <;> simp

lemma seedCell_bit (W : Nat) (seed : Nat → Nat → Bool) (b : Game) (x y j : Nat)
    (h : (y * W + x) / 64 < b.cells.length) :
    bitAt (Game.seedCell W seed b x y).cells j =
      if seed x y ∧ j = y * W + x then true else bitAt b.cells j := by
  unfold Game.seedCell
  by_cases hs : seed x y
  · rw [if_pos hs]
    show bitAt (b.cells.set ((y * W + x) / 64)
      ((b.cells.getD ((y * W + x) / 64) 0) ||| (1 <<< ((y * W + x) % 64)))) j = _
    rw [bitAt_set_or b.cells (y * W + x) j h]
    by_cases hj : j = y * W + x
    · simp [hs, hj]
    · simp [hs, hj]
  · rw [if_neg hs]
    simp [hs]

lemma seedCell_ages (W : Nat) (seed : Nat → Nat → Bool) (b : Game) (x y : Nat)
    (p : Nat × Nat) :
    (Game.seedCell W seed b x y).cell_ages p =
      if seed x y ∧ p = (x, y) then some 1 else b.cell_ages p := by
  unfold Game.seedCell
  by_cases hs : seed x y
  · rw [if_pos hs]
    by_cases hp : p = (x, y) <;> simp [hs, hp]
  · rw [if_neg hs]
    simp [hs]

/-- The seeding fold over an explicit coordinate list. -/
def seedList (W : Nat) (seed : Nat → Nat → Bool) (g : Game)
    (l : List (Nat × Nat)) : Game :=
  l.foldl (fun b p => Game.seedCell W seed b p.1 p.2) g

lemma seedList_append (W : Nat) (seed : Nat → Nat → Bool) (g : Game)
    (l₁ l₂ : List (Nat × Nat)) :
    seedList W seed g (l₁ ++ l₂) = seedList W seed (seedList W seed g l₁) l₂ := by
  simp [seedList]

lemma seedList_map_range (W H : Nat) (seed : Nat → Nat → Bool) (g : Game) (x : Nat) :
    seedList W seed g ((List.range H).map (fun y => (x, y))) =
      (List.range H).foldl (fun b y => Game.seedCell W seed b x y) g := by
  simp [seedList, List.foldl_map]

lemma seed_pass_eq (W H : Nat) (seed : Nat → Nat → Bool) : ∀ (L : List Nat) (g : Game),
    L.foldl (fun a x => (List.range H).foldl (fun b y => Game.seedCell W seed b x y) a) g
      = seedList W seed g (L.flatMap (fun x => (List.range H).map (fun y => (x, y)))) := by
  intro L
  induction L with
  | nil => intro g; rfl
  | cons x L ih =>
    intro g
    rw [List.foldl_cons, List.flatMap_cons, seedList_append, seedList_map_range, ih]

lemma new_eq_seedList (W H : Nat) (seed : Nat → Nat → Bool) :
    Game.new W H seed =
      seedList W seed
        { width := W, height := H,
          cells := List.replicate (BIT_VEC_SIZE W H) 0,
          next_cells := List.replicate (BIT_VEC_SIZE W H) 0,
          cell_ages := fun _ => none }
        (coordsXY W H) := by
  simp only [Game.new]
  rw [seed_pass_eq W H seed (List.range W)]
  rfl

lemma seedList_width (W : Nat) (seed : Nat → Nat → Bool) :
    ∀ (l : List (Nat × Nat)) (g : Game), (seedList W seed g l).width = g.width := by
  intro l
  induction l with
  | nil => intro g; rfl
  | cons p l ih =>
    intro g
    show (seedList W seed (Game.seedCell W seed g p.1 p.2) l).width = g.width
    rw [ih, seedCell_width]

lemma seedList_height (W : Nat) (seed : Nat → Nat → Bool) :
    ∀ (l : List (Nat × Nat)) (g : Game), (seedList W seed g l).height = g.height := by
  intro l
  induction l with
  | nil => intro g; rfl
  | cons p l ih =>
    intro g
    show (seedList W seed (Game.seedCell W seed g p.1 p.2) l).height = g.height
    rw [ih, seedCell_height]

lemma seedList_next (W : Nat) (seed : Nat → Nat → Bool) :
    ∀ (l : List (Nat × Nat)) (g : Game),
      (seedList W seed g l).next_cells = g.next_cells := by
  intro l
  induction l with
  | nil => intro g; rfl
  | cons p l ih =>
    intro g
    show (seedList W seed (Game.seedCell W seed g p.1 p.2) l).next_cells = g.next_cells
    rw [ih, seedCell_next]

lemma seedList_cells_length (W : Nat) (seed : Nat → Nat → Bool) :
    ∀ (l : List (Nat × Nat)) (g : Game),
      (seedList W seed g l).cells.length = g.cells.length := by
  intro l
  induction l with
  | nil => intro g; rfl
  | cons p l ih =>
    intro g
    show (seedList W seed (Game.seedCell W seed g p.1 p.2) l).cells.length = g.cells.length
    rw [ih, seedCell_cells_length]

lemma seedList_bit (W : Nat) (seed : Nat → Nat → Bool) :
    ∀ (l : List (Nat × Nat)) (g : Game),
      (∀ p ∈ l, (p.2 * W + p.1) / 64 < g.cells.length) → ∀ j : Nat,
      bitAt (seedList W seed g l).cells j =
        (bitAt g.cells j || l.any (fun p => seed p.1 p.2 && j == p.2 * W + p.1)) := by
  intro l
  induction l with
  | nil => intro g _ j; simp [seedList]
  | cons p l ih =>
    intro g hl j
    obtain ⟨px, py⟩ := p
    have hv := hl (px, py) (List.mem_cons_self _ _)
    show bitAt (seedList W seed (Game.seedCell W seed g px py) l).cells j = _
    rw [ih (Game.seedCell W seed g px py)
      (by intro q hq; rw [seedCell_cells_length]; exact hl q (List.mem_cons_of_mem _ hq)) j]
    rw [seedCell_bit W seed g px py j hv]
    by_cases hs : seed px py <;> by_cases hj : j = py * W + px
    · simp [hs, hj, List.any_cons]
    · have hb : (j == py * W + px) = false := beq_eq_false_iff_ne.mpr hj
      simp [hs, hj, hb, List.any_cons]
    · simp [hs, hj, List.any_cons]
    · simp [hs, List.any_cons]

lemma seedList_ages (W : Nat) (seed : Nat → Nat → Bool) :
    ∀ (l : List (Nat × Nat)) (g : Game) (qx qy : Nat),
      (seedList W seed g l).cell_ages (qx, qy) =
        if seed qx qy ∧ (qx, qy) ∈ l then some 1 else g.cell_ages (qx, qy) := by
  intro l
  induction l with
  | nil => intro g qx qy; simp [seedList]
  | cons p l ih =>
    intro g qx qy
    obtain ⟨px, py⟩ := p
    show (seedList W seed (Game.seedCell W seed g px py) l).cell_ages (qx, qy) = _
    rw [ih, seedCell_ages]
    by_cases hq : (qx, qy) = (px, py)
    · cases hq
      by_cases hs : seed qx qy <;> by_cases hm : (qx, qy) ∈ l <;>
        simp [hs, hm, List.mem_cons]
    · by_cases hs : seed qx qy <;> by_cases hm : (qx, qy) ∈ l <;>
        simp [hs, hm, hq, List.mem_cons]

lemma bitAt_replicate_zero (n j : Nat) : bitAt (List.replicate n 0) j = false := by
  rw [bitAt_eq_testBit]
  rcases Nat.lt_or_ge (j / 64) n with h | h
  · rw [List.getD_eq_getElem?_getD, List.getElem?_replicate, if_pos h]
    simp [Nat.zero_testBit]
  · rw [List.getD_eq_getElem?_getD, List.getElem?_replicate, if_neg (Nat.not_lt.mpr h)]
    simp [Nat.zero_testBit]

lemma new_width (W H : Nat) (seed : Nat → Nat → Bool) :
    (Game.new W H seed).width = W := by
  rw [new_eq_seedList, seedList_width]

lemma new_height (W H : Nat) (seed : Nat → Nat → Bool) :
    (Game.new W H seed).height = H := by
  rw [new_eq_seedList, seedList_height]

lemma new_cells_length (W H : Nat) (seed : Nat → Nat → Bool) :
    (Game.new W H seed).cells.length = BIT_VEC_SIZE W H := by
  rw [new_eq_seedList, seedList_cells_length]
  exact List.length_replicate _ _

lemma new_next_cells (W H : Nat) (seed : Nat → Nat → Bool) :
    (Game.new W H seed).next_cells = List.replicate (BIT_VEC_SIZE W H) 0 := by
  rw [new_eq_seedList, seedList_next]

lemma coordsXY_vec_bound {W H : Nat} :
    ∀ p ∈ coordsXY W H, (p.2 * W + p.1) / 64 < BIT_VEC_SIZE W H := by
  intro p hp
  obtain ⟨px, py⟩ := p
  obtain ⟨hpw, hph⟩ := mem_coordsXY.mp hp
  exact vec_index_lt hpw hph

lemma new_bit (W H : Nat) (seed : Nat → Nat → Bool) (j : Nat) :
    bitAt (Game.new W H seed).cells j =
      (coordsXY W H).any (fun p => seed p.1 p.2 && j == p.2 * W + p.1) := by
  rw [new_eq_seedList, seedList_bit W seed (coordsXY W H) _
    (by simpa using coordsXY_vec_bound) j]
  simp [bitAt_replicate_zero]

lemma new_get {W H x y : Nat} (seed : Nat → Nat → Bool)
    (hx : x < W) (hy : y < H) :
    (Game.new W H seed).get_cell_state x y = seed x y := by
  rw [get_eq_bitAt, new_width, new_bit]
  cases hs : seed x y
  · rw [List.any_eq_false]
    intro p hp
    obtain ⟨px, py⟩ := p
    obtain ⟨hpw, hph⟩ := mem_coordsXY.mp hp
    intro hc
    rw [Bool.and_eq_true, beq_iff_eq] at hc
    obtain ⟨hc1, hc2⟩ := hc
    obtain ⟨e1, e2⟩ := bit_index_inj hx hpw hc2
    rw [← e1, ← e2] at hc1
    rw [hs] at hc1
    exact Bool.false_ne_true hc1
  · rw [List.any_eq_true]
    exact ⟨(x, y), mem_coordsXY.mpr ⟨hx, hy⟩, by simp [hs]⟩

lemma new_bit_high {W H : Nat} (seed : Nat → Nat → Bool) {j : Nat} (hj : W * H ≤ j) :
    bitAt (Game.new W H seed).cells j = false := by
  rw [new_bit, List.any_eq_false]
  intro p hp
  obtain ⟨px, py⟩ := p
  obtain ⟨hpw, hph⟩ := mem_coordsXY.mp hp
  have := bit_index_lt hpw hph
  simp only [Bool.and_eq_true, beq_iff_eq]
  rintro ⟨-, hc⟩
  omega

lemma new_ages (W H : Nat) (seed : Nat → Nat → Bool) (qx qy : Nat) :
    (Game.new W H seed).cell_ages (qx, qy) =
      if seed qx qy ∧ qx < W ∧ qy < H then some 1 else none := by
  rw [new_eq_seedList, seedList_ages]
  by_cases hs : seed qx qy <;> by_cases hm : (qx, qy) ∈ coordsXY W H
  · rw [if_pos ⟨hs, hm⟩, if_pos ⟨hs, mem_coordsXY.mp hm⟩]
  · rw [if_neg (fun h => hm h.2), if_neg (fun h => hm (mem_coordsXY.mpr h.2))]
  · rw [if_neg (fun h => hs h.1), if_neg (fun h => hs h.1)]
  · rw [if_neg (fun h => hs h.1), if_neg (fun h => hs h.1)]

/-! ### Neighbor counting as a count over the eight wrapped coordinates -/

lemma wrap_lt {m : Nat} (hm : 0 < m) (a : Nat) (d : Int) : wrap a d m < m := by
  unfold wrap
  have hm' : (m : Int) ≠ 0 := by omega
  have h1 : 0 ≤ ((a : Int) + d + m) % m := Int.emod_nonneg _ hm'
  have h2 : ((a : Int) + d + m) % m < m := Int.emod_lt_of_pos _ (by omega)
  omega

lemma count_eq_countP (g : Game) (x y : Nat) :
    g.count_alive_neighbors x y =
      (neighborCoords g.width g.height x y).countP (fun p => g.get_cell_state p.1 p.2) := by
  have hstep : ∀ (b : Bool) (c : Nat), (if b then c + 1 else c) = c + b.toNat := by
    intro b c; cases b <;> simp
  have hone : ∀ b : Bool, (if b = true then 1 else 0) = b.toNat := by
    intro b; cases b <;> simp
  simp [Game.count_alive_neighbors, neighborCoords, neighbor_offsets, wrap,
    List.countP_cons, hstep, hone]
  omega

lemma count_le_eight (g : Game) (x y : Nat) : g.count_alive_neighbors x y ≤ 8 := by
  rw [count_eq_countP]
  have h := List.countP_le_length
    (p := fun p : Nat × Nat => g.get_cell_state p.1 p.2)
    (l := neighborCoords g.width g.height x y)
  simpa [neighborCoords, neighbor_offsets] using h

lemma neighborCoords_bounds {W H : Nat} (hW : 0 < W) (hH : 0 < H) (x y : Nat) :
    ∀ p ∈ neighborCoords W H x y, p.1 < W ∧ p.2 < H := by
  intro p hp
  simp only [neighborCoords, List.mem_map] at hp
  obtain ⟨d, _, he⟩ := hp
  cases he
  exact ⟨wrap_lt hW x d.1, wrap_lt hH y d.2⟩

/-- The rule of the source, written as a Boolean expression. -/
lemma next_state_eq (alive : Bool) (n : Nat) :
    Game.next_state_of alive n = ((alive && n == 2) || n == 3) := by
  cases alive <;> rcases n with _ | _ | _ | _ | n <;> rfl

/-! ### Invariants of reachable states -/

/-- The spec's age invariant: a coordinate has an age entry exactly when it is
an in-range coordinate whose current bit is set. -/
def AgesMatchAlive (g : Game) : Prop :=
  ∀ x y : Nat, (g.cell_ages (x, y)).isSome = true ↔
    (x < g.width ∧ y < g.height ∧ g.get_cell_state x y = true)

lemma reach_inv {W H : Nat} {g : Game} (h : Reachable W H g) :
    g.width = W ∧ g.height = H ∧
    g.cells.length = BIT_VEC_SIZE W H ∧ g.next_cells.length = BIT_VEC_SIZE W H ∧
    AgesMatchAlive g ∧
    (∀ i : Nat, W * H ≤ i → bitAt g.cells i = false ∧ bitAt g.next_cells i = false) := by
  induction h with
  | base seed =>
    refine ⟨new_width W H seed, new_height W H seed, new_cells_length W H seed, ?_, ?_, ?_⟩
    · rw [new_next_cells]
      exact List.length_replicate _ _
    · intro x y
      rw [new_width, new_height, new_ages]
      by_cases hxy : x < W ∧ y < H
      · obtain ⟨hx, hy⟩ := hxy
        rw [new_get seed hx hy]
        by_cases hs : seed x y
        · rw [if_pos ⟨hs, hx, hy⟩]
          simp [hs, hx, hy]
        · rw [if_neg (fun hc => hs hc.1)]
          simp [hs, hx, hy]
      · rw [if_neg (fun hc => hxy hc.2)]
        constructor
        · intro hs
          exact absurd hs (by simp)
        · rintro ⟨hx, hy, -⟩
          exact absurd ⟨hx, hy⟩ hxy
    · intro i hi
      exact ⟨new_bit_high seed hi, by rw [new_next_cells]; exact bitAt_replicate_zero _ _⟩
  | step g hg ih =>
    obtain ⟨hw, hh, hcl, hnl, hages, hpad⟩ := ih
    have hw' : g.update_game_state.width = W := by rw [update_width, hw]
    have hh' : g.update_game_state.height = H := by rw [update_height, hh]
    have hcl' : g.update_game_state.cells.length = BIT_VEC_SIZE W H := by
      rw [update_cells_length, hnl]
    have hnl' : g.update_game_state.next_cells.length = BIT_VEC_SIZE W H := by
      rw [update_next_length, hcl]
    have hnle : BIT_VEC_SIZE g.width g.height ≤ g.next_cells.length := by
      rw [hw, hh, hnl]
    refine ⟨hw', hh', hcl', hnl', ?_, ?_⟩
    · intro x y
      rw [hw', hh']
      by_cases hxy : x < W ∧ y < H
      · obtain ⟨hx, hy⟩ := hxy
        have hx' : x < g.width := by rw [hw]; exact hx
        have hy' : y < g.height := by rw [hh]; exact hy
        rw [update_ages_in g hx' hy', update_get g hx' hy' hnle]
        unfold ageStep
        by_cases hns :
            Game.next_state_of (g.get_cell_state x y) (g.count_alive_neighbors x y) = true
        · rw [if_pos hns]
          simp [hns, hx, hy]
        · rw [if_neg hns]
          simp [hns, hx, hy]
      · have hxy' : ¬(x < g.width ∧ y < g.height) := by
          rw [hw, hh]
          exact hxy
        rw [update_ages_out g hxy']
        constructor
        · intro hs
          have hm := (hages x y).mp hs
          exact absurd ⟨by rw [← hw]; exact hm.1, by rw [← hh]; exact hm.2.1⟩ hxy
        · rintro ⟨hx, hy, -⟩
          exact absurd ⟨hx, hy⟩ hxy
    · intro i hi
      have hi' : g.width * g.height ≤ i := by
        rw [hw, hh]
        exact hi
      constructor
      · rw [update_cells_bit_other g i hi' hnle]
        exact (hpad i hi).2
      · rw [update_next_cells]
        exact (hpad i hi).1

/-! ### Determinism across steps -/

lemma count_eq_of_get (g₁ g₂ : Game) (hW : g₁.width = g₂.width) (hH : g₁.height = g₂.height)
    (hget : ∀ x, x < g₁.width → ∀ y, y < g₁.height →
      g₁.get_cell_state x y = g₂.get_cell_state x y)
    {x y : Nat} (hx : x < g₁.width) (hy : y < g₁.height) :
    g₁.count_alive_neighbors x y = g₂.count_alive_neighbors x y := by
  rw [count_eq_countP, count_eq_countP, ← hW, ← hH]
  apply List.countP_congr
  intro p hp
  obtain ⟨hpw, hph⟩ := neighborCoords_bounds (by omega) (by omega) x y p hp
  rw [hget p.1 hpw p.2 hph]

lemma step_grid_eq (g₁ g₂ : Game) (hW : g₁.width = g₂.width) (hH : g₁.height = g₂.height)
    (h1n : BIT_VEC_SIZE g₁.width g₁.height ≤ g₁.next_cells.length)
    (h2n : BIT_VEC_SIZE g₂.width g₂.height ≤ g₂.next_cells.length)
    (hget : ∀ x, x < g₁.width → ∀ y, y < g₁.height →
      g₁.get_cell_state x y = g₂.get_cell_state x y) :
    ∀ x, x < g₁.width → ∀ y, y < g₁.height →
      g₁.update_game_state.get_cell_state x y =
        g₂.update_game_state.get_cell_state x y := by
  intro x hx y hy
  have hx2 : x < g₂.width := by rw [← hW]; exact hx
  have hy2 : y < g₂.height := by rw [← hH]; exact hy
  rw [update_get g₁ hx hy h1n, update_get g₂ hx2 hy2 h2n,
    hget x hx y hy, count_eq_of_get g₁ g₂ hW hH hget hx hy]

lemma step_ages_eq (g₁ g₂ : Game) (hW : g₁.width = g₂.width) (hH : g₁.height = g₂.height)
    (hget : ∀ x, x < g₁.width → ∀ y, y < g₁.height →
      g₁.get_cell_state x y = g₂.get_cell_state x y)
    (hages : ∀ p : Nat × Nat, g₁.cell_ages p = g₂.cell_ages p) :
    ∀ p : Nat × Nat,
      g₁.update_game_state.cell_ages p = g₂.update_game_state.cell_ages p := by
  intro p
  obtain ⟨px, py⟩ := p
  by_cases hp : px < g₁.width ∧ py < g₁.height
  · obtain ⟨hx, hy⟩ := hp
    have hx2 : px < g₂.width := by rw [← hW]; exact hx
    have hy2 : py < g₂.height := by rw [← hH]; exact hy
    rw [update_ages_in g₁ hx hy, update_ages_in g₂ hx2 hy2]
    unfold ageStep
    rw [hget px hx py hy, count_eq_of_get g₁ g₂ hW hH hget hx hy, hages (px, py)]
  · have hp2 : ¬(px < g₂.width ∧ py < g₂.height) := by rw [← hW, ← hH]; exact hp
    rw [update_ages_out g₁ hp, update_ages_out g₂ hp2]
    exact hages (px, py)

lemma steps_det : ∀ (n : Nat) (g₁ g₂ : Game),
    g₁.width = g₂.width → g₁.height = g₂.height →
    g₁.cells.length = BIT_VEC_SIZE g₁.width g₁.height →
    g₁.next_cells.length = BIT_VEC_SIZE g₁.width g₁.height →
    g₂.cells.length = BIT_VEC_SIZE g₂.width g₂.height →
    g₂.next_cells.length = BIT_VEC_SIZE g₂.width g₂.height →
    (∀ x, x < g₁.width → ∀ y, y < g₁.height →
      g₁.get_cell_state x y = g₂.get_cell_state x y) →
    (∀ p : Nat × Nat, g₁.cell_ages p = g₂.cell_ages p) →
    (∀ x, x < g₁.width → ∀ y, y < g₁.height →
      (steps n g₁).get_cell_state x y = (steps n g₂).get_cell_state x y) ∧
    (∀ p : Nat × Nat, (steps n g₁).cell_ages p = (steps n g₂).cell_ages p) := by
  intro n
  induction n with
  | zero =>
    intro g₁ g₂ _ _ _ _ _ _ hget hages
    exact ⟨hget, hages⟩
  | succ n ih =>
    intro g₁ g₂ hW hH h1c h1n h2c h2n hget hages
    have h1n' : BIT_VEC_SIZE g₁.width g₁.height ≤ g₁.next_cells.length := le_of_eq h1n.symm
    have h2n' : BIT_VEC_SIZE g₂.width g₂.height ≤ g₂.next_cells.length := le_of_eq h2n.symm
    have hWs : g₁.update_game_state.width = g₂.update_game_state.width := by
      rw [update_width, update_width, hW]
    have hHs : g₁.update_game_state.height = g₂.update_game_state.height := by
      rw [update_height, update_height, hH]
    have e1 : g₁.update_game_state.cells.length =
        BIT_VEC_SIZE g₁.update_game_state.width g₁.update_game_state.height := by
      rw [update_cells_length, update_width, update_height, h1n]
    have e2 : g₁.update_game_state.next_cells.length =
        BIT_VEC_SIZE g₁.update_game_state.width g₁.update_game_state.height := by
      rw [update_next_length, update_width, update_height, h1c]
    have e3 : g₂.update_game_state.cells.length =
        BIT_VEC_SIZE g₂.update_game_state.width g₂.update_game_state.height := by
      rw [update_cells_length, update_width, update_height, h2n]
    have e4 : g₂.update_game_state.next_cells.length =
        BIT_VEC_SIZE g₂.update_game_state.width g₂.update_game_state.height := by
      rw [update_next_length, update_width, update_height, h2c]
    have hget' : ∀ x, x < g₁.update_game_state.width → ∀ y,
        y < g₁.update_game_state.height →
        g₁.update_game_state.get_cell_state x y =
          g₂.update_game_state.get_cell_state x y := by
      intro x hx y hy
      rw [update_width] at hx
      rw [update_height] at hy
      exact step_grid_eq g₁ g₂ hW hH h1n' h2n' hget x hx y hy
    have hages' := step_ages_eq g₁ g₂ hW hH hget hages
    have hmain := ih g₁.update_game_state g₂.update_game_state hWs hHs e1 e2 e3 e4 hget' hages'
    refine ⟨?_, hmain.2⟩
    intro x hx y hy
    exact hmain.1 x (by rw [update_width]; exact hx) y (by rw [update_height]; exact hy)

lemma wrap_zero_neg_one {m : Nat} (hm : 0 < m) : wrap 0 (-1) m = m - 1 := by
  unfold wrap
  rw [Int.emod_eq_of_lt (by omega) (by omega)]
  omega

lemma wrap_zero_zero {m : Nat} (_hm : 0 < m) : wrap 0 0 m = 0 := by
  unfold wrap
  have he : ((0 : Nat) : Int) + 0 + (m : Int) = (m : Int) := by omega
  rw [he, Int.emod_self]
  rfl

/-! ### The claims -/

/-- C1: for every grid state and every in-range cell `(x, y)`, one call to
`update_game_state` sets the new current bit of `(x, y)` to
`(alive && (n == 2 || n == 3)) || (!alive && n == 3)`, where `alive` and
`n = count_alive_neighbors x y` are evaluated entirely on the pre-step
current buffer, and the old current buffer becomes the new scratch buffer
(the buffers are exchanged only after the full pass). -/
theorem C1_step_rule (g : Game) (x y : Nat) (hx : x < g.width) (hy : y < g.height)
    (hn : g.next_cells.length = BIT_VEC_SIZE g.width g.height) :
    g.update_game_state.get_cell_state x y =
      rule_spec (g.get_cell_state x y) (g.count_alive_neighbors x y)
    ∧ g.update_game_state.next_cells = g.cells := by
  refine ⟨?_, update_next_cells g⟩
  rw [update_get g hx hy (le_of_eq hn.symm), next_state_eq]
  unfold rule_spec
  cases hA : g.get_cell_state x y <;> simp

/-- C1 witness: the rule equation evaluated on the blinker at cell `(2, 1)`. -/
theorem C1_step_rule_witness :
    2 < blinker.width ∧ 1 < blinker.height ∧
    blinker.next_cells.length = BIT_VEC_SIZE blinker.width blinker.height ∧
    (blinker.update_game_state.get_cell_state 2 1 =
       rule_spec (blinker.get_cell_state 2 1) (blinker.count_alive_neighbors 2 1)
     ∧ blinker.update_game_state.next_cells = blinker.cells) :=
  ⟨by decide, by decide, by decide,
   C1_step_rule blinker 2 1 (by decide) (by decide) (by decide)⟩

/-- C2: `count_alive_neighbors` counts exactly the eight toroidally wrapped
coordinates `((x+dx+W) mod W, (y+dy+H) mod H)` for `(dx,dy)` in
`{-1,0,1}² minus (0,0)`; in particular the neighbors of `(0,0)` include
`(W-1,H-1)`, `(W-1,0)`, and `(0,H-1)`. -/
theorem C2_toroidal (g : Game) (x y : Nat) (hx : x < g.width) (hy : y < g.height) :
    g.count_alive_neighbors x y =
      (neighborCoords g.width g.height x y).countP (fun p => g.get_cell_state p.1 p.2)
    ∧ (g.width - 1, g.height - 1) ∈ neighborCoords g.width g.height 0 0
    ∧ (g.width - 1, 0) ∈ neighborCoords g.width g.height 0 0
    ∧ (0, g.height - 1) ∈ neighborCoords g.width g.height 0 0 := by
  have hW : 0 < g.width := by omega
  have hH : 0 < g.height := by omega
  refine ⟨count_eq_countP g x y, ?_, ?_, ?_⟩
  · simp only [neighborCoords]
    refine List.mem_map.mpr ⟨(-1, -1), by simp [neighbor_offsets], ?_⟩
    show (wrap 0 (-1) g.width, wrap 0 (-1) g.height) = (g.width - 1, g.height - 1)
    rw [wrap_zero_neg_one hW, wrap_zero_neg_one hH]
  · simp only [neighborCoords]
    refine List.mem_map.mpr ⟨(-1, 0), by simp [neighbor_offsets], ?_⟩
    show (wrap 0 (-1) g.width, wrap 0 0 g.height) = (g.width - 1, 0)
    rw [wrap_zero_neg_one hW, wrap_zero_zero hH]
  · simp only [neighborCoords]
    refine List.mem_map.mpr ⟨(0, -1), by simp [neighbor_offsets], ?_⟩
    show (wrap 0 0 g.width, wrap 0 (-1) g.height) = (0, g.height - 1)
    rw [wrap_zero_zero hW, wrap_zero_neg_one hH]

/-- C2 witness: the count equation and the three corner neighbors on the
blinker grid. -/
theorem C2_toroidal_witness :
    0 < blinker.width ∧ 0 < blinker.height ∧
    (blinker.count_alive_neighbors 0 0 =
       (neighborCoords blinker.width blinker.height 0 0).countP
         (fun p => blinker.get_cell_state p.1 p.2)
     ∧ (blinker.width - 1, blinker.height - 1) ∈
         neighborCoords blinker.width blinker.height 0 0
     ∧ (blinker.width - 1, 0) ∈ neighborCoords blinker.width blinker.height 0 0
     ∧ (0, blinker.height - 1) ∈ neighborCoords blinker.width blinker.height 0 0) :=
  ⟨by decide, by decide, C2_toroidal blinker 0 0 (by decide) (by decide)⟩

/-- C4: the rule encoding of the code, `(alive && n == 2) || n == 3`, agrees
with the canonical B3/S23 encoding
`(alive && (n == 2 || n == 3)) || (!alive && n == 3)` for every `alive` and
every neighbor count `n ≤ 8`. -/
theorem C4_rule_equiv (alive : Bool) (n : Nat) (h : n ≤ 8) :
    ((alive && n == 2) || n == 3) = rule_spec alive n ∧
    Game.next_state_of alive n = rule_spec alive n := by
  rw [← next_state_eq]
  refine ⟨?_, ?_⟩ <;>
    cases alive <;> rcases n with _ | _ | _ | _ | n <;> rfl

/-- C4 witness: the two encodings evaluated at `alive = false`, `n = 3`. -/
theorem C4_rule_equiv_witness :
    (3 : Nat) ≤ 8 ∧ Game.next_state_of false 3 = rule_spec false 3 :=
  ⟨by decide, (C4_rule_equiv false 3 (by decide)).2⟩

set_option maxRecDepth 100000 in
/-- C8: a horizontal 3-cell blinker on an otherwise empty 5×5 grid (large
enough that wraparound causes no interference) returns to exactly its
original bit configuration after 2 steps and differs from it after 1. -/
theorem C8_blinker :
    blinker.update_game_state.update_game_state.cells = blinker.cells ∧
    blinker.update_game_state.cells ≠ blinker.cells := by
  constructor
  · decide
  · decide

/-- C3: after construction and after every step, a coordinate has an age
entry in `cell_ages` if and only if it is an in-range coordinate whose
current bit reports alive; the key set of the age map is exactly the set of
live coordinates. -/
theorem C3_age_keyset {W H : Nat} {g : Game} (h : Reachable W H g) :
    AgesMatchAlive g :=
  (reach_inv h).2.2.2.2.1

/-- C3 witness: the invariant evaluated on a freshly constructed 2×2 grid
seeded all-alive, at coordinate `(0, 0)`. -/
theorem C3_age_keyset_witness :
    ((Game.new 2 2 (fun _ _ => true)).cell_ages (0, 0)).isSome = true :=
  (C3_age_keyset (Reachable.base (fun _ _ => true)) 0 0).mpr
    ⟨by decide, by decide, by decide⟩

/-- C5: across one step, a cell that becomes alive from dead gets age exactly
1, a cell that stays alive gets its previous age plus 1, and a cell that is
dead after the step has its age entry removed entirely (absent, not zero). -/
theorem C5_age_transitions (g : Game) (x y : Nat) (hx : x < g.width)
    (hy : y < g.height)
    (hn : g.next_cells.length = BIT_VEC_SIZE g.width g.height) :
    (g.get_cell_state x y = false → g.update_game_state.get_cell_state x y = true →
       g.update_game_state.cell_ages (x, y) = some 1) ∧
    (∀ a : Nat, g.cell_ages (x, y) = some a → g.get_cell_state x y = true →
       g.update_game_state.get_cell_state x y = true →
       g.update_game_state.cell_ages (x, y) = some (a + 1)) ∧
    (g.update_game_state.get_cell_state x y = false →
       g.update_game_state.cell_ages (x, y) = none) := by
  have hle := le_of_eq hn.symm
  have hga := update_ages_in g hx hy
  have hgg := update_get g hx hy hle
  refine ⟨?_, ?_, ?_⟩
  · intro hdead halive
    rw [hgg] at halive
    rw [hga]
    unfold ageStep
    rw [if_pos halive, hdead]
    simp
  · intro a ha halive hpost
    rw [hgg] at hpost
    rw [hga]
    unfold ageStep
    rw [if_pos hpost, halive, ha]
    simp
  · intro hdead
    rw [hgg] at hdead
    rw [hga]
    unfold ageStep
    simp [hdead]

set_option maxRecDepth 100000 in
/-- C5 witness: on the blinker, cell `(2,1)` is born with age 1, cell `(2,2)`
stays alive and its age goes from 1 to 2, and cell `(1,2)` dies and loses its
age entry. -/
theorem C5_age_transitions_witness :
    blinker.update_game_state.cell_ages (2, 1) = some 1 ∧
    blinker.update_game_state.cell_ages (2, 2) = some 2 ∧
    blinker.update_game_state.cell_ages (1, 2) = none :=
  ⟨(C5_age_transitions blinker 2 1 (by decide) (by decide) (by decide)).1
     (by decide) (by decide),
   (C5_age_transitions blinker 2 2 (by decide) (by decide) (by decide)).2.1 1
     (by decide) (by decide) (by decide),
   (C5_age_transitions blinker 1 2 (by decide) (by decide) (by decide)).2.2
     (by decide)⟩

/-- C6: all operations are total and in bounds: for in-range `(x, y)` the
neighbor count is at most 8, the word index `(y*W + x) / 64` is strictly
below the buffer length `ceil(W*H/64)` (so indexing returns `some`, and the
panicking branch is unreachable), and every word index reached through the
wrapped neighbor coordinates is in bounds as well. -/
theorem C6_bounds (g : Game) (x y : Nat) (hx : x < g.width) (hy : y < g.height)
    (hc : g.cells.length = BIT_VEC_SIZE g.width g.height) :
    g.count_alive_neighbors x y ≤ 8 ∧
    (y * g.width + x) / 64 < g.cells.length ∧
    (g.cells[(y * g.width + x) / 64]?).isSome = true ∧
    (∀ p ∈ neighborCoords g.width g.height x y,
      (p.2 * g.width + p.1) / 64 < g.cells.length) := by
  have h2 : (y * g.width + x) / 64 < g.cells.length := by
    rw [hc]
    exact vec_index_lt hx hy
  refine ⟨count_le_eight g x y, h2, ?_, ?_⟩
  · rw [List.getElem?_eq_getElem h2]
    rfl
  · intro p hp
    obtain ⟨hpw, hph⟩ := neighborCoords_bounds (by omega) (by omega) x y p hp
    rw [hc]
    exact vec_index_lt hpw hph

/-- C6 witness: the bounds evaluated on the blinker at cell `(3, 2)`. -/
theorem C6_bounds_witness :
    blinker.count_alive_neighbors 3 2 ≤ 8 ∧
    (2 * blinker.width + 3) / 64 < blinker.cells.length :=
  ⟨(C6_bounds blinker 3 2 (by decide) (by decide) (by decide)).1,
   (C6_bounds blinker 3 2 (by decide) (by decide) (by decide)).2.1⟩

/-- C7: in every state reachable from construction, every bit at linear index
at least `W*H` is zero in both buffers, and the value `get_cell_state`
returns for in-range coordinates depends only on the bits below `W*H` (two
states agreeing there agree on every in-range read). -/
theorem C7_padding {W H : Nat} {g : Game} (h : Reachable W H g) :
    (∀ i : Nat, W * H ≤ i → bitAt g.cells i = false ∧ bitAt g.next_cells i = false) ∧
    (∀ g₂ : Game, g₂.width = g.width → g₂.height = g.height →
      (∀ i : Nat, i < W * H → bitAt g₂.cells i = bitAt g.cells i) →
      ∀ x : Nat, x < W → ∀ y : Nat, y < H →
        g₂.get_cell_state x y = g.get_cell_state x y) := by
  obtain ⟨hw, hh, -, -, -, hpad⟩ := reach_inv h
  refine ⟨hpad, ?_⟩
  intro g₂ hW2 hH2 hbits x hx y hy
  rw [get_eq_bitAt, get_eq_bitAt, hW2, hw]
  exact hbits _ (bit_index_lt hx hy)

/-- C7 witness: padding bit 10 of a reachable 2×3 grid is zero in both
buffers, and a state with a different scratch buffer but the same valid cell
bits reads the same value at `(1, 1)`. -/
theorem C7_padding_witness :
    (bitAt (Game.new 2 3 (fun _ _ => true)).cells 10 = false ∧
     bitAt (Game.new 2 3 (fun _ _ => true)).next_cells 10 = false) ∧
    ({ Game.new 2 3 (fun _ _ => true) with next_cells := [7] } : Game).get_cell_state 1 1 =
      (Game.new 2 3 (fun _ _ => true)).get_cell_state 1 1 :=
  ⟨(C7_padding (Reachable.base (fun _ _ => true))).1 10 (by decide),
   (C7_padding (Reachable.base (fun _ _ => true))).2
     { Game.new 2 3 (fun _ _ => true) with next_cells := [7] }
     rfl rfl (fun _ _ => rfl) 1 (by decide) 1 (by decide)⟩

/-- C9: `update_game_state` is deterministic: two games with equal dimensions,
well-formed buffers, bit-identical current grids (on all valid cells) and
equal age maps stay bit-identical on all valid cells (and keep equal age
maps) after any number `n` of steps; in particular the post-step grid depends
only on the pre-step current buffer, not on the prior contents of the scratch
buffer. -/
theorem C9_determinism (g₁ g₂ : Game)
    (hW : g₁.width = g₂.width) (hH : g₁.height = g₂.height)
    (h1c : g₁.cells.length = BIT_VEC_SIZE g₁.width g₁.height)
    (h1n : g₁.next_cells.length = BIT_VEC_SIZE g₁.width g₁.height)
    (h2c : g₂.cells.length = BIT_VEC_SIZE g₂.width g₂.height)
    (h2n : g₂.next_cells.length = BIT_VEC_SIZE g₂.width g₂.height)
    (hget : ∀ x, x < g₁.width → ∀ y, y < g₁.height →
      g₁.get_cell_state x y = g₂.get_cell_state x y)
    (hages : ∀ p : Nat × Nat, g₁.cell_ages p = g₂.cell_ages p) (n : Nat) :
    (∀ x, x < g₁.width → ∀ y, y < g₁.height →
      (steps n g₁).get_cell_state x y = (steps n g₂).get_cell_state x y) ∧
    (∀ p : Nat × Nat, (steps n g₁).cell_ages p = (steps n g₂).cell_ages p) :=
  steps_det n g₁ g₂ hW hH h1c h1n h2c h2n hget hages

set_option maxRecDepth 100000 in
/-- C9 witness: a 2×2 game and the same game with a different scratch buffer
agree at `(0, 0)` after one step. -/
theorem C9_determinism_witness :
    (steps 1 (Game.new 2 2 (fun x y => x == y))).get_cell_state 0 0 =
      (steps 1 ({ Game.new 2 2 (fun x y => x == y) with
        next_cells := [123456] } : Game)).get_cell_state 0 0 :=
  (C9_determinism (Game.new 2 2 (fun x y => x == y))
    ({ Game.new 2 2 (fun x y => x == y) with next_cells := [123456] } : Game)
    rfl rfl (by decide) (by decide) (by decide) (by decide)
    (fun _ _ _ _ => rfl) (fun _ => rfl) 1).1 0 (by decide) 0 (by decide)

/-- C10: `calculate_color` is pure; the base color is the active color
`rgb(236,68,155)` exactly when `age ≤ 10` and the stable color
`rgb(153,244,67)` otherwise, each RGB channel of the base color is multiplied
by `1 - min(neighbors * 0.05, 0.2)` (so the darkening caps at 20% for 4 or
more neighbors), and the returned alpha is exactly 1 (opaque).  `f32`
arithmetic is idealized as exact rational arithmetic. -/
theorem C10_color (age neighbors : Nat) :
    (calculate_color age neighbors).r =
      (if age ≤ 10 then (Color.from_rgb 236 68 155).r else (Color.from_rgb 153 244 67).r)
        * (1 - min ((neighbors : ℚ) * 0.05) 0.2) ∧
    (calculate_color age neighbors).g =
      (if age ≤ 10 then (Color.from_rgb 236 68 155).g else (Color.from_rgb 153 244 67).g)
        * (1 - min ((neighbors : ℚ) * 0.05) 0.2) ∧
    (calculate_color age neighbors).b =
      (if age ≤ 10 then (Color.from_rgb 236 68 155).b else (Color.from_rgb 153 244 67).b)
        * (1 - min ((neighbors : ℚ) * 0.05) 0.2) ∧
    (calculate_color age neighbors).a = 1 ∧
    (4 ≤ neighbors → 1 - min ((neighbors : ℚ) * 0.05) 0.2 = 1 - 0.2) := by
  refine ⟨?_, ?_, ?_, ?_, ?_⟩
  · by_cases h : age ≤ 10 <;> simp [calculate_color, h]
  · by_cases h : age ≤ 10 <;> simp [calculate_color, h]
  · by_cases h : age ≤ 10 <;> simp [calculate_color, h]
  · norm_num [calculate_color]
  · intro h
    have hq : (4 : ℚ) ≤ (neighbors : ℚ) := by exact_mod_cast h
    rw [min_eq_right (by linarith)]

/-- C10 witness: the color equations evaluated at `age = 11`,
`neighbors = 4`. -/
theorem C10_color_witness :
    (calculate_color 11 4).a = 1 ∧
    1 - min ((4 : ℚ) * 0.05) 0.2 = 1 - 0.2 :=
  ⟨(C10_color 11 4).2.2.2.1, (C10_color 11 4).2.2.2.2 (by norm_num)⟩
